import Mathlib

/-!
# Mandelbrot viewer: rasteriser, viewport mapping and view history

A shallow embedding of `src/main.cpp`.

Modelling conventions.
* `double` values are modelled as exact rationals (`ℚ`); every statement about
  coordinates is therefore a statement in exact arithmetic.
* `std::complex<double>` is a pair of rationals with the usual product and sum.
* `int` values are modelled as mathematical integers (loop counters, which never
  leave `[0, windowWidth]`, as naturals); the `uint32_t` byte offset of
  `set_pixel` is reduced modulo `2^32` and the `uint8_t` counter modulo `2^8`.
* The pixel memory of an `SDL_Surface` is a list of bytes; a store through the
  pixel pointer is `List.set`.
* `draw_mandelbrot` additionally records, in program order, the values of the
  local variables at each execution of the `set_pixel` call (line 58).
-/

namespace Mandelbrot

/-! ## Constants and data (lines 7-16) -/

/-- The constant `windowWidth`. -/
def windowWidth : Nat := 1280

/-- The constant `windowHeight`. -/
def windowHeight : Nat := 1080

/-- The struct `BoundsRect`: four doubles. -/
structure BoundsRect where
  min_x : ℚ
  max_x : ℚ
  min_y : ℚ
  max_y : ℚ
deriving DecidableEq

/-- A value of `std::complex<double>`. -/
structure Cplx where
  re : ℚ
  im : ℚ
deriving DecidableEq

/-- Product of two complex numbers (`operator*`). -/
def Cplx.mul (a b : Cplx) : Cplx :=
  ⟨a.re * b.re - a.im * b.im, a.re * b.im + a.im * b.re⟩

/-- Sum of two complex numbers (`operator+`). -/
def Cplx.add (a b : Cplx) : Cplx :=
  ⟨a.re + b.re, a.im + b.im⟩

/-! ## The per-pixel escape loop (lines 34-36 and 44-56) -/

/-- The lambda `mag2` of `draw_mandelbrot`. -/
def mag2 (z : Cplx) : ℚ :=
  z.im * z.im + z.re * z.re

/-- The loop `while (mag2(z) < 4) { z = z*z + c; i++; if (i == 255) { i = 0; break; } }`
started in the state `(z, i)`; the result is the value of `i` after the loop.
The counter is a `uint8_t`, so `i++` is taken modulo 256. -/
def escape_loop (c z : Cplx) (i : Nat) : Nat :=
  if mag2 z < 4 then
    if (i + 1) % 256 = 255 then 0
    else escape_loop c ((z.mul z).add c) ((i + 1) % 256)
  else i
termination_by (510 - i % 256) % 256
decreasing_by omega

/-- Lines 44-56: `z = c = (sx, sy)`, `i = 0`, run the loop; the value passed to
`set_pixel` in all three channels. -/
def pixel_intensity (c : Cplx) : Nat :=
  escape_loop c c 0

/-! ## The escape-time reference of the specification -/

/-- The loop of the specification, "repeat while `|z|² < 4` and `i < 255`:
`z = z*z + c; i += 1`", started in the state `(z, i)`; the result is the final
value of `i`. -/
def spec_loop (c z : Cplx) (i : Nat) : Nat :=
  if mag2 z < 4 ∧ i < 255 then spec_loop c ((z.mul z).add c) (i + 1)
  else i
termination_by 255 - i
decreasing_by omega

/-- The intensity of the specification: with `n` the number of iterations
performed from `z = c`, `i = 0`, it is `0` if `n` reaches 255 and `n` otherwise. -/
def spec_intensity (c : Cplx) : Nat :=
  if spec_loop c c 0 = 255 then 0 else spec_loop c c 0

/-! ## Pixel memory and `set_pixel` (lines 18-24) -/

/-- The parts of an `SDL_Surface` that the program uses: the width field `w` and
the bytes behind the `pixels` pointer. -/
structure Surface where
  w : Int
  pixels : List Nat
deriving DecidableEq

/-- The byte offset computed on line 20: `((y * bitmap->w) + x) * 3`, an `int`
converted to `uint32_t`. -/
def pixel_offset (w x y : Int) : Nat :=
  ((((y * w) + x) * 3) % 4294967296).toNat

/-- The function `set_pixel`: three byte stores at `offset + 0`, `offset + 1`
and `offset + 2`. -/
def set_pixel (bitmap : Surface) (x y : Int) (r g b : Nat) : Surface :=
  { bitmap with
    pixels :=
      ((bitmap.pixels.set (pixel_offset bitmap.w x y + 0) r).set
        (pixel_offset bitmap.w x y + 1) g).set (pixel_offset bitmap.w x y + 2) b }

/-! ## `draw_mandelbrot` (lines 26-66) -/

/-- The local variables at one execution of line 58,
`set_pixel(bitmap, x, y, i, i, i)`: the pixel, its coordinate and the counter. -/
structure Visit where
  x : Nat
  y : Nat
  sx : ℚ
  sy : ℚ
  i : Nat
deriving DecidableEq

/-- The state threaded through the two loops: the surface and the record of
the executions of line 58 so far, oldest first. -/
structure DrawState where
  bitmap : Surface
  trace : List Visit
deriving DecidableEq

/-- The inner loop `for (int x = 0; x < W; x++, sx += step_x)` (lines 43-59),
entered with the current values of `x` and `sx`. -/
def draw_row (W : Nat) (step_x sy : ℚ) (y x : Nat) (sx : ℚ) (st : DrawState) : DrawState :=
  if x < W then
    draw_row W step_x sy y (x + 1) (sx + step_x)
      ⟨set_pixel st.bitmap x y (pixel_intensity ⟨sx, sy⟩) (pixel_intensity ⟨sx, sy⟩)
          (pixel_intensity ⟨sx, sy⟩),
        st.trace ++ [⟨x, y, sx, sy, pixel_intensity ⟨sx, sy⟩⟩]⟩
  else st
termination_by W - x
decreasing_by omega

/-- The outer loop `for (int y = 0; y < H; y++, sy += step_y)` (lines 40-60),
entered with the current values of `y` and `sy`; each pass starts the inner loop
at `x = 0`, `sx = brect->min_x`. -/
def draw_rows (W H : Nat) (min_x step_x step_y : ℚ) (y : Nat) (sy : ℚ) (st : DrawState) :
    DrawState :=
  if y < H then
    draw_rows W H min_x step_x step_y (y + 1) (sy + step_y) (draw_row W step_x sy y 0 min_x st)
  else st
termination_by H - y
decreasing_by omega

/-- The body of `draw_mandelbrot` for window dimensions `W` and `H`
(the timing output of lines 27 and 62-65 is left out). -/
def draw_mandelbrot_dims (W H : Nat) (bitmap : Surface) (brect : BoundsRect) : DrawState :=
  draw_rows W H brect.min_x ((brect.max_x - brect.min_x) / (W : ℚ))
    ((brect.max_y - brect.min_y) / (H : ℚ)) 0 brect.min_y ⟨bitmap, []⟩

/-- The function `draw_mandelbrot`, at the program's `windowWidth` and `windowHeight`. -/
def draw_mandelbrot (bitmap : Surface) (brect : BoundsRect) : DrawState :=
  draw_mandelbrot_dims windowWidth windowHeight bitmap brect

/-! ## `scale` (lines 68-71) -/

/-- The function `scale`: `f = ((double)v - min) / (max - min)`, result
`f * (max_d - min_d) + min_d`. -/
def scale (v min max : Int) (min_d max_d : ℚ) : ℚ :=
  (((v : ℚ) - (min : ℚ)) / ((max - min : Int) : ℚ)) * (max_d - min_d) + min_d

/-! ## The main loop (lines 73-217) -/

/-- The struct `SDL_Rect`. -/
structure SDL_Rect where
  x : Int
  y : Int
  w : Int
  h : Int
deriving DecidableEq

/-- The value of `SDL_SCANCODE_Z` in the SDL headers. -/
def SDL_SCANCODE_Z : Nat := 29

/-- The value of `SDL_SCANCODE_LGUI` in the SDL headers. -/
def SDL_SCANCODE_LGUI : Nat := 227

/-- The events that `SDL_PollEvent` can deliver, with the fields the program reads;
`other` stands for every event type the program ignores. -/
inductive Event where
  | quit
  | mouseButtonDown (x y : Int)
  | mouseButtonUp (x y : Int)
  | mouseMotion (x y : Int)
  | keyDown (scancode : Nat)
  | keyUp (scancode : Nat)
  | other
deriving DecidableEq

/-- The variables of `main` that live across loop iterations, and the global `history`
(a `std::vector`: `push_back` appends at the end, `back` is the last element). -/
structure AppState where
  brect : BoundsRect
  history : List BoundsRect
  bitmap : Surface
  running : Bool
  mouse_down : Bool
  dragging : Bool
  mouse_down_pos : Int × Int
  mouse_pos : Int × Int
  command_pressed : Bool
  drag_rect : SDL_Rect
  need_redraw : Bool
deriving DecidableEq

/-- The assignments of lines 122-125: the drag rectangle from the button-down
position and the last mouse position. -/
def drag_rect_of (mouse_down_pos mouse_pos : Int × Int) : SDL_Rect :=
  { x := mouse_down_pos.1
    y := mouse_down_pos.2
    w := mouse_pos.1 - mouse_down_pos.1
    h := mouse_pos.2 - mouse_down_pos.2 }

/-- The first part of a loop iteration (lines 108-130): redraw if requested, then
recompute `drag_rect` if a drag is in progress. -/
def render_phase (s : AppState) : AppState :=
  let s1 : AppState :=
    if s.need_redraw then
      { s with bitmap := (draw_mandelbrot s.bitmap s.brect).bitmap, need_redraw := false }
    else s
  if s1.dragging then
    { s1 with drag_rect := drag_rect_of s1.mouse_down_pos s1.mouse_pos }
  else s1

/-- The computation of `brect_new` on lines 154-171. -/
def zoom_rect (brect : BoundsRect) (drag_rect : SDL_Rect) : BoundsRect :=
  { min_x := scale (min drag_rect.x (drag_rect.x + drag_rect.w)) 0 windowWidth
      brect.min_x brect.max_x
    max_x := scale (max drag_rect.x (drag_rect.x + drag_rect.w)) 0 windowWidth
      brect.min_x brect.max_x
    min_y := scale (min drag_rect.y (drag_rect.y + drag_rect.h)) 0 windowHeight
      brect.min_y brect.max_y
    max_y := scale (max drag_rect.y (drag_rect.y + drag_rect.h)) 0 windowHeight
      brect.min_y brect.max_y }

/-- The assignments of lines 175-177: push the current rect, install the new
one, request a redraw. -/
def install_zoom (s : AppState) (brect_new : BoundsRect) : AppState :=
  { s with history := s.history ++ [s.brect], brect := brect_new, need_redraw := true }

/-- The undo of lines 209-213. -/
def undo (s : AppState) : AppState :=
  if h : s.history ≠ [] then
    { s with brect := s.history.getLast h, history := s.history.dropLast, need_redraw := true }
  else s

/-- The body of the loop `while (SDL_PollEvent(&event))` (lines 134-215) for one event. -/
def handle_event (s : AppState) : Event → AppState
  | .quit => { s with running := false }
  | .mouseButtonDown x y => { s with mouse_down := true, mouse_down_pos := (x, y) }
  | .mouseButtonUp _ _ =>
    let s1 : AppState := if s.dragging then install_zoom s (zoom_rect s.brect s.drag_rect) else s
    { s1 with mouse_down := false, dragging := false }
  | .mouseMotion x y =>
    if s.mouse_down then { s with dragging := true, mouse_pos := (x, y) } else s
  | .keyDown scancode =>
    if scancode = SDL_SCANCODE_LGUI then { s with command_pressed := true } else s
  | .keyUp scancode =>
    let s1 : AppState :=
      if scancode = SDL_SCANCODE_LGUI then { s with command_pressed := false } else s
    if scancode = SDL_SCANCODE_Z ∧ s1.command_pressed = true then undo s1 else s1
  | .other => s

/-- The loop `while (SDL_PollEvent(&event))`: the pending events are handled in order. -/
def poll_events (s : AppState) (events : List Event) : AppState :=
  events.foldl handle_event s

/-- One iteration of `while (running)`, given the events pending when polling starts. -/
def main_iteration (s : AppState) (events : List Event) : AppState :=
  poll_events (render_phase s) events

/-- The loop `while (running)`: one list of pending events per iteration; the
loop stops when `running` is false or the input ends. -/
def main_loop (s : AppState) : List (List Event) → AppState
  | [] => s
  | events :: rest => if s.running then main_loop (main_iteration s events) rest else s

/-- The initial value of `brect` (line 76). -/
def default_brect : BoundsRect := ⟨-2, 2, -2, 2⟩

/-- The state of `main` on entry to the loop (lines 76-105); `drag_rect` is not
initialised by the program, so its initial value is a parameter, as is the
content of the freshly created surface. -/
def initial_state (bitmap : Surface) (drag_rect : SDL_Rect) : AppState :=
  { brect := default_brect
    history := []
    bitmap := bitmap
    running := true
    mouse_down := false
    dragging := false
    mouse_down_pos := (0, 0)
    mouse_pos := (0, 0)
    command_pressed := false
    drag_rect := drag_rect
    need_redraw := true }

/-! ## Auxiliary definitions used in the statements -/

/-- The value of an accumulator that starts at `start` after `k` executions of
`s += step`. -/
def accumulate (start step : ℚ) : Nat → ℚ
  | 0 => start
  | k + 1 => accumulate (start + step) step k

/-- The effect of one execution of line 58 on the state of `draw_mandelbrot`. -/
def apply_visit (st : DrawState) (v : Visit) : DrawState :=
  ⟨set_pixel st.bitmap v.x v.y v.i v.i v.i, st.trace ++ [v]⟩

/-- The execution of line 58 for pixel `(x, y)` when the loops are entered with
the accumulators `sx0`, `sy0` at the pixel `(0, 0)`. -/
def visit_at (sx0 step_x sy0 step_y : ℚ) (x y : Nat) : Visit :=
  { x := x
    y := y
    sx := accumulate sx0 step_x x
    sy := accumulate sy0 step_y y
    i := pixel_intensity ⟨accumulate sx0 step_x x, accumulate sy0 step_y y⟩ }

/-- The execution of line 58 for pixel `(x, y)` in a call of `draw_mandelbrot`
with dimensions `W`, `H` on the rect `brect`. -/
def pixel_visit (W H : Nat) (brect : BoundsRect) (x y : Nat) : Visit :=
  visit_at brect.min_x ((brect.max_x - brect.min_x) / (W : ℚ)) brect.min_y
    ((brect.max_y - brect.min_y) / (H : ℚ)) x y

/-- The executions of line 58 in a call of `draw_mandelbrot`, in row-major order:
entry `j` is the one for pixel `(j % W, j / W)`. -/
def all_visits (W H : Nat) (brect : BoundsRect) : List Visit :=
  (List.range (W * H)).map fun j => pixel_visit W H brect (j % W) (j / W)

/-! ## Example inputs -/

/-- A surface as created on lines 92-93: 1280 by 1080 pixels of three bytes, here all `255`. -/
def blank_surface : Surface :=
  ⟨1280, List.replicate (3 * 1280 * 1080) 255⟩

/-- A rect whose pixel `(0, 0)` has the coordinate `3 + 3i`. -/
def far_brect : BoundsRect := ⟨3, 4, 3, 4⟩

/-- The state of `main` when polling starts in the third loop iteration, after the
button went down at `(10, 10)` in the first iteration and the mouse moved to
`(10, 50)` in the second: a drag of zero width is in progress. -/
def degenerate_drag_state : AppState :=
  render_phase (main_loop (initial_state blank_surface ⟨0, 0, 0, 0⟩)
    [[Event.mouseButtonDown 10 10], [Event.mouseMotion 10 50]])

/-- A state in which a drag from `(100, 200)` to `(40, 500)` is in progress while the
command key is held, over a view that was reached by one earlier zoom. -/
def sample_drag_state : AppState :=
  { brect := ⟨-1, 1, 0, 1⟩
    history := [default_brect]
    bitmap := blank_surface
    running := true
    mouse_down := true
    dragging := true
    mouse_down_pos := (100, 200)
    mouse_pos := (40, 500)
    command_pressed := true
    drag_rect := drag_rect_of (100, 200) (40, 500)
    need_redraw := false }

/-- The inverse linear map of the round-trip property of the specification, for one
axis: a coordinate `real` of the rect `[min_d, max_d]` is sent back to the pixel
`(real - min_d) / (max_d - min_d) * W`. -/
def pixel_of_coord (real min_d max_d : ℚ) (W : Nat) : ℚ :=
  (real - min_d) / (max_d - min_d) * (W : ℚ)

/-- A gesture whose last motion event and button-up are drained by the same polling
pass: button down at `(10, 10)` in the first loop iteration, motion to `(50, 50)`
in the second, motion to `(100, 100)` and button-up in the third. -/
def batched_gesture : List (List Event) :=
  [[Event.mouseButtonDown 10 10], [Event.mouseMotion 50 50],
    [Event.mouseMotion 100 100, Event.mouseButtonUp 100 100]]

/-- The same events as `batched_gesture` without the intermediate motion, one event
per loop iteration. -/
def spread_gesture : List (List Event) :=
  [[Event.mouseButtonDown 10 10], [Event.mouseMotion 100 100], [Event.mouseButtonUp 100 100]]

/-- Two successive zoom targets, used as an example of a zoom sequence. -/
def sample_zooms : List BoundsRect :=
  [far_brect, ⟨-1, 1, 0, 1⟩]

/-! ## Facts about the escape loop -/

theorem spec_loop_at_cap (c z : Cplx) : spec_loop c z 255 = 255 := by
  rw [spec_loop]; simp

theorem escape_loop_refines (c : Cplx) :
    ∀ (n : Nat) (z : Cplx) (i : Nat), i + n = 254 →
      escape_loop c z i = (if spec_loop c z i = 255 then 0 else spec_loop c z i)
        ∧ escape_loop c z i ≤ 254 := by
  intro n
  induction n with
  | zero =>
    intro z i h
    have hi : i = 254 := by omega
    subst hi
    rw [escape_loop, spec_loop]
    by_cases hm : mag2 z < 4
    · simp [hm, spec_loop_at_cap]
    · simp [hm]
  | succ n ih =>
    intro z i h
    rw [escape_loop, spec_loop]
    by_cases hm : mag2 z < 4
    · have h1 : (i + 1) % 256 = i + 1 := by omega
      have h2 : i + 1 ≠ 255 := by omega
      have h3 : i < 255 := by omega
      simp only [hm, h1, h2, h3, if_true, if_false, and_self]
      exact ih _ (i + 1) (by omega)
    · have h2 : i ≠ 255 := by omega
      simp only [hm, h2, if_false, false_and]
      exact ⟨trivial, by omega⟩

theorem pixel_intensity_le (c : Cplx) : pixel_intensity c ≤ 254 :=
  (escape_loop_refines c 254 c 0 (by omega)).2

/-! ## Facts about the loops of `draw_mandelbrot` -/

theorem accumulate_eq (start step : ℚ) (k : Nat) :
    accumulate start step k = start + (k : ℚ) * step := by
  induction k generalizing start with
  | zero => simp [accumulate]
  | succ k ih => rw [accumulate, ih]; push_cast; ring

theorem accumulate_shift (start step : ℚ) (k : Nat) :
    accumulate (start + step) step k = accumulate start step (k + 1) := rfl

theorem draw_row_eq (W : Nat) (step_x sy : ℚ) (y : Nat) :
    ∀ (n x : Nat) (sx : ℚ) (st : DrawState), x + n = W →
      draw_row W step_x sy y x sx st =
        ((List.range n).map fun k =>
          (⟨x + k, y, accumulate sx step_x k, sy,
            pixel_intensity ⟨accumulate sx step_x k, sy⟩⟩ : Visit)).foldl apply_visit st := by
  intro n
  induction n with
  | zero =>
    intro x sx st h
    rw [draw_row]
    simp [show ¬ x < W by omega]
  | succ n ih =>
    intro x sx st h
    rw [draw_row]
    simp only [show x < W by omega, if_true]
    rw [ih (x + 1) (sx + step_x) _ (by omega), List.range_succ_eq_map]
    simp only [List.map_cons, List.foldl_cons, List.map_map]
    congr 1
    apply List.map_congr_left
    intro k _
    simp only [Function.comp, accumulate]
    congr 1
    omega

theorem draw_rows_eq (W H : Nat) (min_x step_x step_y : ℚ) :
    ∀ (n y : Nat) (sy : ℚ) (st : DrawState), y + n = H →
      draw_rows W H min_x step_x step_y y sy st =
        ((List.range n).flatMap fun j =>
          (List.range W).map fun k =>
            (⟨k, y + j, accumulate min_x step_x k, accumulate sy step_y j,
              pixel_intensity ⟨accumulate min_x step_x k, accumulate sy step_y j⟩⟩ : Visit)).foldl
          apply_visit st := by
  intro n
  induction n with
  | zero =>
    intro y sy st h
    rw [draw_rows]
    simp [show ¬ y < H by omega]
  | succ n ih =>
    intro y sy st h
    rw [draw_rows]
    simp only [show y < H by omega, if_true]
    rw [ih (y + 1) (sy + step_y) _ (by omega), draw_row_eq W step_x sy y W 0 min_x st (by omega),
      List.range_succ_eq_map]
    simp only [List.flatMap_cons, List.foldl_append, List.flatMap_map]
    congr 1
    · congr 1
      apply List.map_congr_left
      intro k _
      simp [accumulate]
    · congr 1
      funext j
      apply List.map_congr_left
      intro k _
      simp only [Function.comp, accumulate]
      congr 1
      omega

theorem draw_mandelbrot_dims_eq (W H : Nat) (bitmap : Surface) (brect : BoundsRect) :
    draw_mandelbrot_dims W H bitmap brect =
      ((List.range H).flatMap fun y =>
        (List.range W).map fun x => pixel_visit W H brect x y).foldl apply_visit ⟨bitmap, []⟩ := by
  rw [draw_mandelbrot_dims, draw_rows_eq W H _ _ _ H 0 _ _ (by omega)]
  congr 1
  congr 1
  funext y
  apply List.map_congr_left
  intro x _
  simp [pixel_visit, visit_at]

theorem flatMap_range_grid {α : Type} (f : Nat → Nat → α) (W : Nat) :
    ∀ H : Nat, ((List.range H).flatMap fun y => (List.range W).map fun x => f x y) =
      (List.range (W * H)).map fun j => f (j % W) (j / W) := by
  intro H
  induction H with
  | zero => simp
  | succ H ih =>
    rw [List.range_succ, List.flatMap_append, ih, Nat.mul_succ, List.range_add, List.map_append]
    congr 1
    simp only [List.flatMap_cons, List.flatMap_nil, List.append_nil, List.map_map]
    apply List.map_congr_left
    intro k hk
    have hk' : k < W := List.mem_range.mp hk
    have hW : 0 < W := by omega
    simp only [Function.comp]
    rw [Nat.mul_add_mod, Nat.mod_eq_of_lt hk', Nat.mul_add_div hW, Nat.div_eq_of_lt hk', Nat.add_zero]

theorem draw_mandelbrot_dims_fold (W H : Nat) (bitmap : Surface) (brect : BoundsRect) :
    draw_mandelbrot_dims W H bitmap brect =
      (all_visits W H brect).foldl apply_visit ⟨bitmap, []⟩ := by
  rw [draw_mandelbrot_dims_eq, flatMap_range_grid (fun x y => pixel_visit W H brect x y) W H]
  rfl

theorem foldl_apply_visit (vs : List Visit) :
    ∀ st : DrawState,
      (vs.foldl apply_visit st).trace = st.trace ++ vs ∧
      (vs.foldl apply_visit st).bitmap =
        vs.foldl (fun b v => set_pixel b v.x v.y v.i v.i v.i) st.bitmap := by
  induction vs with
  | nil => intro st; simp
  | cons v vs ih =>
    intro st
    simp only [List.foldl_cons]
    rw [(ih _).1, (ih _).2]
    simp [apply_visit]

/-! ## Facts about `set_pixel` and the pixel memory -/

theorem pixel_offset_eq (W x y : Nat) (h : 3 * (y * W + x) < 4294967296) :
    pixel_offset (W : Int) (x : Int) (y : Int) = 3 * (y * W + x) := by
  unfold pixel_offset
  have e : (((y : Int) * (W : Int) + (x : Int)) * 3) = ((3 * (y * W + x) : Nat) : Int) := by
    push_cast; ring
  rw [e, Int.emod_eq_of_lt (Int.natCast_nonneg _) (by exact_mod_cast h), Int.toNat_natCast]

theorem set_pixel_append (W : Int) (A rest : List Nat) (x y : Int) (r g b a0 a1 a2 : Nat)
    (hoff : pixel_offset W x y = A.length) :
    set_pixel ⟨W, A ++ a0 :: a1 :: a2 :: rest⟩ x y r g b = ⟨W, A ++ r :: g :: b :: rest⟩ := by
  simp [set_pixel, hoff, List.set_append]

theorem foldl_set_pixel_grid (W : Nat) :
    ∀ (vs : List Visit) (A rest : List Nat) (base : Nat),
      A.length = 3 * base →
      (∀ (j : Nat) (h : j < vs.length), vs[j].y * W + vs[j].x = base + j) →
      3 * (base + vs.length) < 4294967296 →
      3 * vs.length ≤ rest.length →
      vs.foldl (fun b v => set_pixel b v.x v.y v.i v.i v.i) ⟨(W : Int), A ++ rest⟩ =
        ⟨(W : Int), A ++ (vs.flatMap fun v => [v.i, v.i, v.i]) ++ rest.drop (3 * vs.length)⟩ := by
  intro vs
  induction vs with
  | nil => intro A rest base _ _ _ _; simp
  | cons v vs ih =>
    intro A rest base hA hidx hsz hlen
    simp only [List.length_cons] at hsz hlen
    match rest, hlen with
    | a0 :: a1 :: a2 :: rest', hlen =>
      have h0 : v.y * W + v.x = base := by
        have := hidx 0 (by simp)
        simpa using this
      have hoff : pixel_offset (W : Int) (v.x : Int) (v.y : Int) = A.length := by
        rw [pixel_offset_eq W v.x v.y (by rw [h0]; omega), h0, hA]
      simp only [List.foldl_cons]
      rw [set_pixel_append (W : Int) A rest' _ _ v.i v.i v.i a0 a1 a2 hoff]
      have hstep := ih (A ++ [v.i, v.i, v.i]) rest' (base + 1)
        (by simp [hA]; omega)
        (by
          intro j hj
          have := hidx (j + 1) (by simp; omega)
          simp only [List.getElem_cons_succ] at this
          omega)
        (by omega)
        (by simp only [List.length_cons] at hlen; omega)
      have e1 : A ++ v.i :: v.i :: v.i :: rest' = (A ++ [v.i, v.i, v.i]) ++ rest' := by simp
      rw [e1, hstep]
      have e2 : 3 * (vs.length + 1) = 3 * vs.length + 1 + 1 + 1 := by omega
      simp [e2]

theorem flatMap_triple_getElem? {α : Type} (f : α → Nat) :
    ∀ (vs : List α) (j k : Nat), k < 3 →
      (vs.flatMap fun v => [f v, f v, f v])[3 * j + k]? = (vs[j]?).map f := by
  intro vs
  induction vs with
  | nil => intro j k _; simp
  | cons v vs ih =>
    intro j k hk
    cases j with
    | zero =>
      have : k = 0 ∨ k = 1 ∨ k = 2 := by omega
      rcases this with rfl | rfl | rfl <;> simp
    | succ j =>
      have e : 3 * (j + 1) + k = (3 * j + k) + 1 + 1 + 1 := by omega
      rw [e]
      simpa using ih j k hk

/-! ## Row-major pixel indices -/

theorem grid_lt {W H x y : Nat} (hx : x < W) (hy : y < H) : y * W + x < W * H := by
  have h1 : (y + 1) * W ≤ H * W := Nat.mul_le_mul_right W hy
  have h2 : (y + 1) * W = y * W + W := by ring
  have h3 : H * W = W * H := Nat.mul_comm H W
  omega

theorem grid_mod {W x : Nat} (y : Nat) (hx : x < W) : (y * W + x) % W = x := by
  rw [Nat.add_comm, Nat.add_mul_mod_self_right, Nat.mod_eq_of_lt hx]

theorem grid_div {W x : Nat} (y : Nat) (hx : x < W) : (y * W + x) / W = y := by
  have hW : 0 < W := by omega
  rw [Nat.add_comm, Nat.add_mul_div_right _ _ hW, Nat.div_eq_of_lt hx, Nat.zero_add]

theorem all_visits_getElem? (W H : Nat) (brect : BoundsRect) {x y : Nat}
    (hx : x < W) (hy : y < H) :
    (all_visits W H brect)[y * W + x]? = some (pixel_visit W H brect x y) := by
  unfold all_visits
  rw [List.getElem?_map, List.getElem?_range (grid_lt hx hy)]
  simp [grid_mod y hx, grid_div y hx]

theorem draw_trace_eq (W H : Nat) (bitmap : Surface) (brect : BoundsRect) :
    (draw_mandelbrot_dims W H bitmap brect).trace = all_visits W H brect := by
  rw [draw_mandelbrot_dims_fold, (foldl_apply_visit _ _).1]
  simp

theorem draw_bitmap_eq_fold (W H : Nat) (bitmap : Surface) (brect : BoundsRect) :
    (draw_mandelbrot_dims W H bitmap brect).bitmap =
      (draw_mandelbrot_dims W H bitmap brect).trace.foldl
        (fun b v => set_pixel b v.x v.y v.i v.i v.i) bitmap := by
  rw [draw_trace_eq, draw_mandelbrot_dims_fold, (foldl_apply_visit _ _).2]

theorem draw_bitmap_eq (W H : Nat) (bitmap : Surface) (brect : BoundsRect)
    (hw : bitmap.w = (W : Int)) (hlen : bitmap.pixels.length = 3 * W * H)
    (hsz : 3 * W * H < 2147483648) :
    (draw_mandelbrot_dims W H bitmap brect).bitmap =
      ⟨(W : Int), (all_visits W H brect).flatMap fun v => [v.i, v.i, v.i]⟩ := by
  have hlenv : (all_visits W H brect).length = W * H := by simp [all_visits]
  rw [draw_mandelbrot_dims_fold, (foldl_apply_visit _ _).2]
  have hb : bitmap = ⟨(W : Int), [] ++ bitmap.pixels⟩ := by
    cases bitmap; simp at hw; simp [hw]
  have h3 : 3 * W * H = 3 * (W * H) := by ring
  have := foldl_set_pixel_grid W (all_visits W H brect) [] bitmap.pixels 0 (by simp)
    (by
      intro j hj
      rw [hlenv] at hj
      simp only [all_visits, List.getElem_map, List.getElem_range, pixel_visit, visit_at]
      rw [Nat.zero_add]
      exact Nat.div_add_mod' j W)
    (by rw [hlenv]; omega)
    (by rw [hlenv]; omega)
  show List.foldl _ bitmap _ = _
  rw [hb, this, hlenv, List.drop_of_length_le (by omega)]
  simp

theorem draw_pixels_getElem? (W H : Nat) (bitmap : Surface) (brect : BoundsRect)
    (hw : bitmap.w = (W : Int)) (hlen : bitmap.pixels.length = 3 * W * H)
    (hsz : 3 * W * H < 2147483648) {x y k : Nat} (hx : x < W) (hy : y < H) (hk : k < 3) :
    (draw_mandelbrot_dims W H bitmap brect).bitmap.pixels[3 * (y * W + x) + k]? =
      some (pixel_visit W H brect x y).i := by
  rw [draw_bitmap_eq W H bitmap brect hw hlen hsz]
  show (List.flatMap _ _)[_]? = _
  rw [flatMap_triple_getElem? (fun v : Visit => v.i) _ _ _ hk, all_visits_getElem? W H brect hx hy]
  rfl

theorem pixel_visit_mem_trace (W H : Nat) (bitmap : Surface) (brect : BoundsRect) {x y : Nat}
    (hx : x < W) (hy : y < H) :
    pixel_visit W H brect x y ∈ (draw_mandelbrot_dims W H bitmap brect).trace := by
  rw [draw_trace_eq]
  exact List.getElem?_mem (all_visits_getElem? W H brect hx hy)

theorem mem_trace_iff (W H : Nat) (bitmap : Surface) (brect : BoundsRect) (v : Visit) :
    v ∈ (draw_mandelbrot_dims W H bitmap brect).trace ↔
      ∃ x y, x < W ∧ y < H ∧ v = pixel_visit W H brect x y := by
  rw [draw_trace_eq]
  constructor
  · intro hv
    simp only [all_visits, List.mem_map, List.mem_range] at hv
    obtain ⟨j, hj, rfl⟩ := hv
    have hW : 0 < W := by
      rcases Nat.eq_zero_or_pos W with h | h
      · subst h; simp at hj
      · exact h
    refine ⟨j % W, j / W, Nat.mod_lt _ hW, ?_, rfl⟩
    exact Nat.div_lt_of_lt_mul hj
  · rintro ⟨x, y, hx, hy, rfl⟩
    exact List.getElem?_mem (all_visits_getElem? W H brect hx hy)

theorem visit_intensity (W H : Nat) (bitmap : Surface) (brect : BoundsRect) (v : Visit)
    (hv : v ∈ (draw_mandelbrot_dims W H bitmap brect).trace) :
    v.i = pixel_intensity ⟨v.sx, v.sy⟩ := by
  obtain ⟨x, y, _, _, rfl⟩ := (mem_trace_iff W H bitmap brect v).mp hv
  rfl

theorem escape_loop_outside (c z : Cplx) (i : Nat) (h : 4 ≤ mag2 z) : escape_loop c z i = i := by
  rw [escape_loop]
  simp [not_lt.mpr h]

theorem escape_loop_origin :
    ∀ (n i : Nat), i + n = 254 → escape_loop ⟨0, 0⟩ ⟨0, 0⟩ i = 0 := by
  intro n
  induction n with
  | zero =>
    intro i h
    have hi : i = 254 := by omega
    subst hi
    rw [escape_loop]
    simp [mag2]
  | succ n ih =>
    intro i h
    rw [escape_loop]
    have h1 : (i + 1) % 256 = i + 1 := by omega
    have h2 : i + 1 ≠ 255 := by omega
    have hz : (Cplx.mul ⟨0, 0⟩ ⟨0, 0⟩).add ⟨0, 0⟩ = (⟨0, 0⟩ : Cplx) := by
      simp [Cplx.mul, Cplx.add]
    have hm : mag2 ⟨0, 0⟩ < 4 := by simp [mag2]
    simp only [hm, h1, h2, if_true, if_false, hz]
    exact ih (i + 1) (by omega)

theorem blank_surface_length : blank_surface.pixels.length = 3 * 1280 * 1080 :=
  List.length_replicate _ _

theorem default_centre_visit :
    pixel_visit 1280 1080 default_brect 640 540 = ⟨640, 540, 0, 0, 0⟩ := by
  have hx : accumulate (-2) ((2 - (-2)) / ((1280 : Nat) : ℚ)) 640 = 0 := by
    rw [accumulate_eq]; norm_num
  have hy : accumulate (-2) ((2 - (-2)) / ((1080 : Nat) : ℚ)) 540 = 0 := by
    rw [accumulate_eq]; norm_num
  have hi : pixel_intensity ⟨0, 0⟩ = 0 := escape_loop_origin 254 0 (by omega)
  simp only [pixel_visit, visit_at, default_brect, hx, hy, hi]

theorem scale_eq (v : Int) (W : Nat) (min_d max_d : ℚ) :
    scale v 0 (W : Int) min_d max_d = min_d + (v : ℚ) * ((max_d - min_d) / (W : ℚ)) := by
  unfold scale
  simp only [Int.cast_zero, sub_zero, Int.cast_natCast]
  ring

theorem pixel_visit_coords (W H : Nat) (brect : BoundsRect) (x y : Nat) :
    (pixel_visit W H brect x y).x = x ∧ (pixel_visit W H brect x y).y = y ∧
      (pixel_visit W H brect x y).sx = scale (x : Int) 0 (W : Int) brect.min_x brect.max_x ∧
      (pixel_visit W H brect x y).sy = scale (y : Int) 0 (H : Int) brect.min_y brect.max_y := by
  refine ⟨rfl, rfl, ?_, ?_⟩
  · rw [scale_eq]; simp [pixel_visit, visit_at, accumulate_eq]
  · rw [scale_eq]; simp [pixel_visit, visit_at, accumulate_eq]

theorem grid_inj {W x y x' y' k k' : Nat} (hx : x < W) (hx' : x' < W) (hk : k < 3)
    (hk' : k' < 3) (h : 3 * (y * W + x) + k = 3 * (y' * W + x') + k') :
    x = x' ∧ y = y' ∧ k = k' := by
  have hkk : k = k' := by omega
  have hp : y * W + x = y' * W + x' := by omega
  have h1 := grid_mod y hx
  have h2 := grid_div y hx
  rw [hp, grid_mod y' hx'] at h1
  rw [hp, grid_div y' hx'] at h2
  exact ⟨h1.symm, h2.symm, hkk⟩

theorem countP_map_range_unique {β : Type} (f : Nat → β) (p : β → Bool) (j0 : Nat) :
    ∀ n : Nat, j0 < n → (∀ j, j < n → (p (f j) = true ↔ j = j0)) →
      ((List.range n).map f).countP p = 1 := by
  intro n
  induction n with
  | zero => intro h; omega
  | succ n ih =>
    intro hj hp
    rw [List.range_succ, List.map_append, List.countP_append]
    by_cases hn : j0 = n
    · subst hn
      have hz : ((List.range j0).map f).countP p = 0 := by
        rw [List.countP_eq_zero]
        intro b hb
        simp only [List.mem_map, List.mem_range] at hb
        obtain ⟨j, hjlt, rfl⟩ := hb
        intro hpj
        have := (hp j (by omega)).mp hpj
        omega
      have hl : p (f j0) = true := (hp j0 (by omega)).mpr rfl
      simp [hz, hl]
    · have h1 := ih (by omega) (fun j hjn => hp j (by omega))
      have hl : ¬ p (f n) = true := fun h => hn ((hp n (by omega)).mp h).symm
      simp [h1, hl]

theorem trace_count_one (W H : Nat) (bitmap : Surface) (brect : BoundsRect) {x y : Nat}
    (hx : x < W) (hy : y < H) :
    (draw_mandelbrot_dims W H bitmap brect).trace.countP
      (fun v => decide (v.x = x ∧ v.y = y)) = 1 := by
  rw [draw_trace_eq]
  unfold all_visits
  apply countP_map_range_unique _ _ (y * W + x) (W * H) (grid_lt hx hy)
  intro j hj
  have hW : 0 < W := by omega
  simp only [pixel_visit, visit_at, decide_eq_true_eq]
  constructor
  · rintro ⟨h1, h2⟩
    rw [← h1, ← h2]
    exact (Nat.div_add_mod' j W).symm
  · intro h
    rw [h]
    exact ⟨grid_mod y hx, grid_div y hx⟩

/-! ## Facts about `scale` and the event handlers -/

theorem scale_lt_scale (v1 v2 : Int) (W : Nat) (min_d max_d : ℚ) (hW : 0 < W)
    (hd : min_d < max_d) (hv : v1 < v2) :
    scale v1 0 (W : Int) min_d max_d < scale v2 0 (W : Int) min_d max_d := by
  rw [scale_eq, scale_eq]
  have hWq : (0 : ℚ) < (W : ℚ) := by exact_mod_cast hW
  have hstep : 0 < (max_d - min_d) / (W : ℚ) := div_pos (by linarith) hWq
  have hvq : (v1 : ℚ) < (v2 : ℚ) := by exact_mod_cast hv
  have := mul_lt_mul_of_pos_right hvq hstep
  linarith

theorem undo_install_zoom (s : AppState) (r : BoundsRect) :
    undo (install_zoom s r) = { s with need_redraw := true } := by
  simp [undo, install_zoom]

theorem handle_mouse_up_dragging (s : AppState) (x y : Int) (hd : s.dragging = true) :
    handle_event s (Event.mouseButtonUp x y) =
      { install_zoom s (zoom_rect s.brect s.drag_rect) with
        mouse_down := false, dragging := false } := by
  simp [handle_event, hd]

theorem handle_mouse_up_idle (s : AppState) (x y : Int) (hd : s.dragging = false) :
    handle_event s (Event.mouseButtonUp x y) = { s with mouse_down := false } := by
  cases s
  simp only at hd
  simp [handle_event, hd]

theorem zoom_rect_zero_width (c : BoundsRect) (d : SDL_Rect) (h : d.w = 0) :
    (zoom_rect c d).min_x = (zoom_rect c d).max_x := by
  simp [zoom_rect, h]

theorem zoom_rect_zero_height (c : BoundsRect) (d : SDL_Rect) (h : d.h = 0) :
    (zoom_rect c d).min_y = (zoom_rect c d).max_y := by
  simp [zoom_rect, h]

theorem drag_corner_cancel (a b : Int) : a + (b - a) = b := by omega

theorem scale_le_scale (v1 v2 : Int) (W : Nat) (min_d max_d : ℚ)
    (hd : min_d ≤ max_d) (hv : v1 ≤ v2) :
    scale v1 0 (W : Int) min_d max_d ≤ scale v2 0 (W : Int) min_d max_d := by
  rw [scale_eq, scale_eq]
  have hWq : (0 : ℚ) ≤ (W : ℚ) := by exact_mod_cast Nat.zero_le W
  have hstep : 0 ≤ (max_d - min_d) / (W : ℚ) := div_nonneg (by linarith) hWq
  have hvq : (v1 : ℚ) ≤ (v2 : ℚ) := by exact_mod_cast hv
  have := mul_le_mul_of_nonneg_right hvq hstep
  linarith

theorem scale_at_zero (W : Nat) (min_d max_d : ℚ) : scale 0 0 (W : Int) min_d max_d = min_d := by
  rw [scale_eq]
  simp

theorem scale_at_max (W : Nat) (min_d max_d : ℚ) (hW : 0 < W) :
    scale (W : Int) 0 (W : Int) min_d max_d = max_d := by
  rw [scale_eq]
  have hWq : (W : ℚ) ≠ 0 := by exact_mod_cast (Nat.pos_iff_ne_zero.mp hW)
  simp only [Int.cast_natCast]
  field_simp

theorem zoom_rect_of_corners (c : BoundsRect) (A B : Int × Int) :
    zoom_rect c (drag_rect_of A B) =
      { min_x := scale (min A.1 B.1) 0 (windowWidth : Int) c.min_x c.max_x
        max_x := scale (max A.1 B.1) 0 (windowWidth : Int) c.min_x c.max_x
        min_y := scale (min A.2 B.2) 0 (windowHeight : Int) c.min_y c.max_y
        max_y := scale (max A.2 B.2) 0 (windowHeight : Int) c.min_y c.max_y } := by
  simp only [zoom_rect, drag_rect_of, drag_corner_cancel]

theorem render_phase_fields (s : AppState) :
    (render_phase s).history = s.history ∧ (render_phase s).brect = s.brect ∧
      (render_phase s).dragging = s.dragging ∧ (render_phase s).mouse_down = s.mouse_down := by
  cases hn : s.need_redraw <;> cases hd : s.dragging <;> simp [render_phase, hn, hd]

theorem mouse_down_fields (s : AppState) (x y : Int) :
    (handle_event s (Event.mouseButtonDown x y)).history = s.history ∧
      (handle_event s (Event.mouseButtonDown x y)).brect = s.brect ∧
      (handle_event s (Event.mouseButtonDown x y)).dragging = s.dragging :=
  ⟨rfl, rfl, rfl⟩

theorem mouse_up_idle_fields (s : AppState) (x y : Int) (hd : s.dragging = false) :
    (handle_event s (Event.mouseButtonUp x y)).history = s.history ∧
      (handle_event s (Event.mouseButtonUp x y)).brect = s.brect := by
  rw [handle_mouse_up_idle s x y hd]
  exact ⟨rfl, rfl⟩

/-! ## Facts about the history -/

theorem foldl_install_zoom_stack (rs : List BoundsRect) :
    ∀ s : AppState,
      (rs.foldl install_zoom s).history ++ [(rs.foldl install_zoom s).brect] =
        s.history ++ [s.brect] ++ rs := by
  induction rs with
  | nil => intro s; simp
  | cons r rs ih =>
    intro s
    rw [List.foldl_cons, ih (install_zoom s r)]
    simp [install_zoom]

theorem undo_stack (s : AppState) (h : s.history ≠ []) :
    (undo s).history ++ [(undo s).brect] = s.history := by
  simp [undo, h, List.dropLast_concat_getLast]

theorem undo_of_empty (s : AppState) (h : s.history = []) : undo s = s := by
  simp [undo, h]

theorem iterate_undo_of_empty (s : AppState) (h : s.history = []) :
    ∀ m : Nat, Nat.iterate undo m s = s := by
  intro m
  induction m with
  | zero => rfl
  | succ m ih => rw [Function.iterate_succ_apply, undo_of_empty s h, ih]

theorem iterate_undo_stack :
    ∀ (j : Nat) (s : AppState), j ≤ s.history.length →
      (Nat.iterate undo j s).history ++ [(Nat.iterate undo j s).brect] =
        (s.history ++ [s.brect]).take (s.history.length + 1 - j) := by
  intro j
  induction j with
  | zero =>
    intro s _
    rw [List.take_of_length_le (by simp)]
    rfl
  | succ j ih =>
    intro s hj
    have hne : s.history ≠ [] := by
      intro h
      rw [h] at hj
      simp at hj
    have hst := undo_stack s hne
    have hlen : (undo s).history.length + 1 = s.history.length := by
      have := congrArg List.length hst
      simpa using this
    rw [Function.iterate_succ_apply, ih (undo s) (by omega), hst]
    have e1 : (undo s).history.length + 1 - j = s.history.length - j := by omega
    have e2 : s.history.length + 1 - (j + 1) = s.history.length - j := by omega
    rw [e1, e2, List.take_append_of_le_length (by omega)]

theorem stack_split {l h : List BoundsRect} {b : BoundsRect} {n : Nat} (hn : n < l.length)
    (hs : h ++ [b] = l.take (n + 1)) : h = l.take n ∧ l[n]? = some b := by
  have hget : l[n]? = some (l[n]) := List.getElem?_eq_getElem hn
  rw [List.take_succ, hget] at hs
  have := List.append_inj' hs (by simp)
  refine ⟨this.1, ?_⟩
  rw [hget]
  have h2 : [b] = [l[n]] := by simpa using this.2
  simp only [List.cons.injEq, and_true] at h2
  rw [h2]

/-! ## The claims -/

/-- **C1.** For every complex coordinate `c`, the intensity computed by lines
44-56 of `draw_mandelbrot` equals the escape-time reference of the
specification (the number `n` of iterations of "repeat while `|z|² < 4` and
`i < 255`", replaced by `0` when `n` reaches 255), and it is never 255; and the
value `draw_mandelbrot` passes to `set_pixel` for a pixel with coordinate
`(sx, sy)` is that intensity. -/
theorem pixel_intensity_eq_spec :
    (∀ c : Cplx, pixel_intensity c = spec_intensity c ∧ pixel_intensity c ≠ 255) ∧
    (∀ (W H : Nat) (bitmap : Surface) (brect : BoundsRect) (v : Visit),
      v ∈ (draw_mandelbrot_dims W H bitmap brect).trace →
        v.i = spec_intensity ⟨v.sx, v.sy⟩ ∧ v.i ≠ 255) := by
  have key : ∀ c : Cplx, pixel_intensity c = spec_intensity c ∧ pixel_intensity c ≠ 255 := by
    intro c
    refine ⟨(escape_loop_refines c 254 c 0 (by omega)).1, ?_⟩
    have := pixel_intensity_le c
    omega
  refine ⟨key, ?_⟩
  intro W H bitmap brect v hv
  rw [visit_intensity W H bitmap brect v hv]
  exact key _

/-- Witness for C1: the visit of the centre pixel of the program's window on the default rect. -/
theorem pixel_intensity_eq_spec_witness :
    pixel_visit 1280 1080 default_brect 640 540 ∈
        (draw_mandelbrot_dims 1280 1080 ⟨1280, []⟩ default_brect).trace ∧
      (pixel_visit 1280 1080 default_brect 640 540).i =
        spec_intensity ⟨(pixel_visit 1280 1080 default_brect 640 540).sx,
          (pixel_visit 1280 1080 default_brect 640 540).sy⟩ ∧
      (pixel_visit 1280 1080 default_brect 640 540).i ≠ 255 :=
  ⟨pixel_visit_mem_trace 1280 1080 ⟨1280, []⟩ default_brect (by decide) (by decide),
    pixel_intensity_eq_spec.2 1280 1080 ⟨1280, []⟩ default_brect _
      (pixel_visit_mem_trace 1280 1080 ⟨1280, []⟩ default_brect (by decide) (by decide))⟩

/-- Counterexample to **C2** as stated: `c = 3 + 3i` lies outside radius 2, but
the loop body is never entered for it and the intensity is `0`, not `1`; the pixel
`(0, 0)` of a rendering of the rect `[3,4]x[3,4]` has this coordinate and its
first byte is written with `0`. -/
theorem far_outside_intensity_not_one :
    (4 : ℚ) ≤ 3 ^ 2 + 3 ^ 2 ∧ pixel_intensity ⟨3, 3⟩ = 0 ∧ pixel_intensity ⟨3, 3⟩ ≠ 1 ∧
      (draw_mandelbrot blank_surface far_brect).trace[0]? = some ⟨0, 0, 3, 3, 0⟩ ∧
      (draw_mandelbrot blank_surface far_brect).bitmap.pixels[0]? = some 0 := by
  have h0 : pixel_intensity ⟨3, 3⟩ = 0 :=
    escape_loop_outside _ _ 0 (by norm_num [mag2])
  have hv : pixel_visit 1280 1080 far_brect 0 0 = ⟨0, 0, 3, 3, 0⟩ := by
    simp [pixel_visit, visit_at, accumulate, far_brect, h0]
  refine ⟨by norm_num, h0, by rw [h0]; decide, ?_, ?_⟩
  · have := all_visits_getElem? 1280 1080 far_brect (show 0 < 1280 by decide)
      (show 0 < 1080 by decide)
    rw [hv] at this
    show (draw_mandelbrot_dims 1280 1080 blank_surface far_brect).trace[0]? = _
    rw [draw_trace_eq]
    exact this
  · have := draw_pixels_getElem? 1280 1080 blank_surface far_brect rfl blank_surface_length
      (by decide) (show 0 < 1280 by decide) (show 0 < 1080 by decide) (show 0 < 3 by decide)
    rw [hv] at this
    exact this

/-- **C2 (amended).** For every complex coordinate `c` outside radius 2, that is
with `re(c)² + im(c)² ≥ 4`, the intensity computed by `draw_mandelbrot` is `0`
(the loop body is never entered, so the counter keeps its initial value), and
that is the value passed to `set_pixel` for every pixel with such a coordinate. -/
theorem outside_radius_two_intensity_zero :
    (∀ c : Cplx, 4 ≤ c.re ^ 2 + c.im ^ 2 → pixel_intensity c = 0) ∧
    (∀ (W H : Nat) (bitmap : Surface) (brect : BoundsRect) (v : Visit),
      v ∈ (draw_mandelbrot_dims W H bitmap brect).trace →
        4 ≤ v.sx ^ 2 + v.sy ^ 2 → v.i = 0) := by
  have key : ∀ c : Cplx, 4 ≤ c.re ^ 2 + c.im ^ 2 → pixel_intensity c = 0 := by
    intro c h
    apply escape_loop_outside
    unfold mag2
    nlinarith [h]
  refine ⟨key, ?_⟩
  intro W H bitmap brect v hv h
  rw [visit_intensity W H bitmap brect v hv]
  exact key ⟨v.sx, v.sy⟩ h

/-- Witness for the amended C2 at `c = 3 + 3i` and at the pixel `(0, 0)` of the rect `[3,4]x[3,4]`. -/
theorem outside_radius_two_intensity_zero_witness :
    ((4 : ℚ) ≤ (⟨3, 3⟩ : Cplx).re ^ 2 + (⟨3, 3⟩ : Cplx).im ^ 2 ∧ pixel_intensity ⟨3, 3⟩ = 0) ∧
      (pixel_visit 1280 1080 far_brect 0 0 ∈
          (draw_mandelbrot_dims 1280 1080 blank_surface far_brect).trace ∧
        (pixel_visit 1280 1080 far_brect 0 0).i = 0) :=
  ⟨⟨by norm_num, outside_radius_two_intensity_zero.1 ⟨3, 3⟩ (by norm_num)⟩,
    pixel_visit_mem_trace 1280 1080 blank_surface far_brect (by decide) (by decide),
    outside_radius_two_intensity_zero.2 1280 1080 blank_surface far_brect _
      (pixel_visit_mem_trace 1280 1080 blank_surface far_brect (by decide) (by decide))
      (by simp [pixel_visit, visit_at, accumulate, far_brect]; norm_num)⟩

/-- **C8.** Rendering the default rect `[-2,2]x[-2,2]` at 1280 by 1080: the centre
pixel `(W/2, H/2) = (640, 540)` is visited with the coordinate `0 + 0i` and the
counter `0` (the orbit of `0` never leaves radius 2, the counter reaches 255 and
is reset), and the three bytes of that pixel are written with `0`. -/
theorem default_centre_pixel_black :
    (windowWidth / 2 = 640 ∧ windowHeight / 2 = 540) ∧
    (∀ bitmap : Surface,
      (draw_mandelbrot bitmap default_brect).trace[540 * 1280 + 640]? =
        some ⟨640, 540, 0, 0, 0⟩) ∧
    (∀ bitmap : Surface, bitmap.w = 1280 → bitmap.pixels.length = 3 * 1280 * 1080 →
      ∀ k : Nat, k < 3 →
        (draw_mandelbrot bitmap default_brect).bitmap.pixels[3 * (540 * 1280 + 640) + k]? =
          some 0) := by
  refine ⟨⟨by decide, by decide⟩, ?_, ?_⟩
  · intro bitmap
    show (draw_mandelbrot_dims 1280 1080 bitmap default_brect).trace[540 * 1280 + 640]? = _
    rw [draw_trace_eq, all_visits_getElem? 1280 1080 default_brect (by decide) (by decide),
      default_centre_visit]
  · intro bitmap hw hlen k hk
    have := draw_pixels_getElem? 1280 1080 bitmap default_brect hw hlen (by decide)
      (show 640 < 1280 by decide) (show 540 < 1080 by decide) hk
    rw [default_centre_visit] at this
    exact this

/-- Witness for C8: a surface of 1280 by 1080 pixels whose bytes are all `255` before the call. -/
theorem default_centre_pixel_black_witness :
    blank_surface.w = 1280 ∧ blank_surface.pixels.length = 3 * 1280 * 1080 ∧ 1 < 3 ∧
      (draw_mandelbrot blank_surface default_brect).bitmap.pixels[3 * (540 * 1280 + 640) + 1]? =
        some 0 :=
  ⟨rfl, blank_surface_length, by decide,
    default_centre_pixel_black.2.2 blank_surface rfl blank_surface_length 1 (by decide)⟩

/-- **C9.** For every rect and every surface of width `W` and height `H` with
three bytes per pixel (`bitmap->w == W`, and `3*W*H` within the range of `int`),
one call of `draw_mandelbrot` executes `set_pixel` for each pixel `(x, y)` with
`x < W`, `y < H` exactly once and for no other pixel, each time with the same
value in the three channels; the call for `(x, y)` stores at the byte offsets
`3*(y*W + x) + 0, 1, 2`; these offsets are pairwise disjoint across pixels, lie
in `[0, 3*W*H)` and cover every byte of the buffer; afterwards every byte of
the buffer holds the intensity of its pixel. -/
theorem draw_mandelbrot_writes_each_pixel_once (W H : Nat) (bitmap : Surface)
    (brect : BoundsRect) (hw : bitmap.w = (W : Int))
    (hlen : bitmap.pixels.length = 3 * W * H) (hsz : 3 * W * H < 2147483648) :
    (∀ v ∈ (draw_mandelbrot_dims W H bitmap brect).trace, v.x < W ∧ v.y < H) ∧
    (∀ x y : Nat, x < W → y < H →
      (draw_mandelbrot_dims W H bitmap brect).trace.countP
        (fun v => decide (v.x = x ∧ v.y = y)) = 1) ∧
    (draw_mandelbrot_dims W H bitmap brect).bitmap =
      (draw_mandelbrot_dims W H bitmap brect).trace.foldl
        (fun b v => set_pixel b v.x v.y v.i v.i v.i) bitmap ∧
    (∀ x y : Nat, x < W → y < H →
      pixel_offset bitmap.w (x : Int) (y : Int) = 3 * (y * W + x)) ∧
    (∀ x y k x' y' k' : Nat, x < W → y < H → k < 3 → x' < W → y' < H → k' < 3 →
      3 * (y * W + x) + k = 3 * (y' * W + x') + k' → x = x' ∧ y = y' ∧ k = k') ∧
    (∀ x y k : Nat, x < W → y < H → k < 3 → 3 * (y * W + x) + k < 3 * W * H) ∧
    (∀ b : Nat, b < 3 * W * H →
      ∃ x y k : Nat, x < W ∧ y < H ∧ k < 3 ∧ b = 3 * (y * W + x) + k) ∧
    (draw_mandelbrot_dims W H bitmap brect).bitmap.pixels.length = 3 * W * H ∧
    (∀ x y k : Nat, x < W → y < H → k < 3 →
      ∃ v ∈ (draw_mandelbrot_dims W H bitmap brect).trace, v.x = x ∧ v.y = y ∧
        (draw_mandelbrot_dims W H bitmap brect).bitmap.pixels[3 * (y * W + x) + k]? =
          some v.i) := by
  have h3 : 3 * W * H = 3 * (W * H) := by ring
  refine ⟨?_, ?_, draw_bitmap_eq_fold W H bitmap brect, ?_, ?_, ?_, ?_, ?_, ?_⟩
  · intro v hv
    obtain ⟨x, y, hx, hy, rfl⟩ := (mem_trace_iff W H bitmap brect v).mp hv
    exact ⟨hx, hy⟩
  · intro x y hx hy
    exact trace_count_one W H bitmap brect hx hy
  · intro x y hx hy
    rw [hw]
    apply pixel_offset_eq
    have := grid_lt hx hy
    omega
  · intro x y k x' y' k' hx _ hk hx' _ hk' h
    exact grid_inj hx hx' hk hk' h
  · intro x y k hx hy hk
    have := grid_lt hx hy
    omega
  · intro b hb
    have hb3 : b / 3 < W * H := by omega
    have hW : 0 < W := by
      rcases Nat.eq_zero_or_pos W with h | h
      · subst h; simp at hb3
      · exact h
    refine ⟨b / 3 % W, b / 3 / W, b % 3, Nat.mod_lt _ hW, Nat.div_lt_of_lt_mul hb3,
      Nat.mod_lt _ (by decide), ?_⟩
    rw [Nat.div_add_mod' (b / 3) W]
    omega
  · rw [draw_bitmap_eq W H bitmap brect hw hlen hsz]
    show (List.flatMap _ _).length = _
    have : ∀ vs : List Visit, (vs.flatMap fun v => [v.i, v.i, v.i]).length = 3 * vs.length := by
      intro vs
      induction vs with
      | nil => rfl
      | cons v vs ih => simp only [List.flatMap_cons, List.length_append, ih, List.length_cons,
          List.length_nil]; omega
    rw [this, h3]
    simp [all_visits]
  · intro x y k hx hy hk
    exact ⟨pixel_visit W H brect x y, pixel_visit_mem_trace W H bitmap brect hx hy, rfl, rfl,
      draw_pixels_getElem? W H bitmap brect hw hlen hsz hx hy hk⟩

/-- Witness for C9: the program's own dimensions, 1280 by 1080, on the default rect. -/
theorem draw_mandelbrot_writes_each_pixel_once_witness :
    blank_surface.w = ((1280 : Nat) : Int) ∧
      blank_surface.pixels.length = 3 * 1280 * 1080 ∧ 3 * 1280 * 1080 < 2147483648 ∧
      (draw_mandelbrot_dims 1280 1080 blank_surface default_brect).trace.countP
        (fun v => decide (v.x = 7 ∧ v.y = 9)) = 1 ∧
      (draw_mandelbrot_dims 1280 1080 blank_surface default_brect).bitmap.pixels.length =
        3 * 1280 * 1080 :=
  ⟨rfl, blank_surface_length, by decide,
    (draw_mandelbrot_writes_each_pixel_once 1280 1080 blank_surface default_brect rfl
      blank_surface_length (by decide)).2.1 7 9 (by decide) (by decide),
    (draw_mandelbrot_writes_each_pixel_once 1280 1080 blank_surface default_brect rfl
      blank_surface_length (by decide)).2.2.2.2.2.2.2.1⟩

/-- **C10.** For every rect and every pixel `(x, y)` with `x < W`, `y < H`, the
coordinate `(sx, sy)` with which `draw_mandelbrot` reaches that pixel, by adding
`step_x = (max_x - min_x)/W` and `step_y = (max_y - min_y)/H` once per column and
row, equals in exact arithmetic
`(scale(x, 0, W, min_x, max_x), scale(y, 0, H, min_y, max_y))`. -/
theorem draw_coordinate_eq_scale (W H : Nat) (bitmap : Surface) (brect : BoundsRect) :
    (∀ v ∈ (draw_mandelbrot_dims W H bitmap brect).trace,
      v.sx = scale (v.x : Int) 0 (W : Int) brect.min_x brect.max_x ∧
      v.sy = scale (v.y : Int) 0 (H : Int) brect.min_y brect.max_y) ∧
    (∀ x y : Nat, x < W → y < H →
      ∃ v, (draw_mandelbrot_dims W H bitmap brect).trace[y * W + x]? = some v ∧
        v.x = x ∧ v.y = y ∧
        v.sx = scale (x : Int) 0 (W : Int) brect.min_x brect.max_x ∧
        v.sy = scale (y : Int) 0 (H : Int) brect.min_y brect.max_y) := by
  constructor
  · intro v hv
    obtain ⟨x, y, _, _, rfl⟩ := (mem_trace_iff W H bitmap brect v).mp hv
    exact ⟨(pixel_visit_coords W H brect x y).2.2.1, (pixel_visit_coords W H brect x y).2.2.2⟩
  · intro x y hx hy
    refine ⟨pixel_visit W H brect x y, ?_, pixel_visit_coords W H brect x y⟩
    rw [draw_trace_eq]
    exact all_visits_getElem? W H brect hx hy

/-- Witness for C10: pixel `(7, 9)` of the program's window on the default rect. -/
theorem draw_coordinate_eq_scale_witness :
    (pixel_visit 1280 1080 default_brect 7 9 ∈
        (draw_mandelbrot_dims 1280 1080 blank_surface default_brect).trace ∧
      (pixel_visit 1280 1080 default_brect 7 9).sx =
        scale (((pixel_visit 1280 1080 default_brect 7 9).x : Nat) : Int) 0 ((1280 : Nat) : Int)
          default_brect.min_x default_brect.max_x) ∧
    (7 < 1280 ∧ 9 < 1080 ∧
      ∃ v, (draw_mandelbrot_dims 1280 1080 blank_surface default_brect).trace[9 * 1280 + 7]? =
          some v ∧ v.x = 7 ∧ v.y = 9 ∧
        v.sx = scale ((7 : Nat) : Int) 0 ((1280 : Nat) : Int) default_brect.min_x
          default_brect.max_x ∧
        v.sy = scale ((9 : Nat) : Int) 0 ((1080 : Nat) : Int) default_brect.min_y
          default_brect.max_y) :=
  ⟨⟨pixel_visit_mem_trace 1280 1080 blank_surface default_brect (by decide) (by decide),
      ((draw_coordinate_eq_scale 1280 1080 blank_surface default_brect).1 _
        (pixel_visit_mem_trace 1280 1080 blank_surface default_brect (by decide) (by decide))).1⟩,
    by decide, by decide,
    (draw_coordinate_eq_scale 1280 1080 blank_surface default_brect).2 7 9 (by decide)
      (by decide)⟩

/-- **C3.** For every current rect `c`, history `h` and new rect `r`: pushing `c`,
installing `r` (lines 175-177) and then undoing (lines 209-213) leaves the current
rect equal to `c` in all four fields and the history equal to `h`; the same holds
for the two events, a button-up that ends a drag followed by the release of `Z`
while the command key is held. -/
theorem zoom_then_undo_restores :
    (∀ (s : AppState) (r : BoundsRect),
      (install_zoom s r).brect = r ∧ (install_zoom s r).history = s.history ++ [s.brect] ∧
      (undo (install_zoom s r)).brect = s.brect ∧
      (undo (install_zoom s r)).brect.min_x = s.brect.min_x ∧
      (undo (install_zoom s r)).brect.max_x = s.brect.max_x ∧
      (undo (install_zoom s r)).brect.min_y = s.brect.min_y ∧
      (undo (install_zoom s r)).brect.max_y = s.brect.max_y ∧
      (undo (install_zoom s r)).history = s.history) ∧
    (∀ (s : AppState) (x y : Int), s.dragging = true → s.command_pressed = true →
      (handle_event (handle_event s (Event.mouseButtonUp x y))
        (Event.keyUp SDL_SCANCODE_Z)).brect = s.brect ∧
      (handle_event (handle_event s (Event.mouseButtonUp x y))
        (Event.keyUp SDL_SCANCODE_Z)).history = s.history) := by
  constructor
  · intro s r
    rw [undo_install_zoom]
    simp [install_zoom]
  · intro s x y hd hc
    rw [handle_mouse_up_dragging s x y hd]
    have hne : ¬ SDL_SCANCODE_Z = SDL_SCANCODE_LGUI := by decide
    simp [handle_event, hne, hc, install_zoom, undo]

/-- Witness for C3: a drag in progress with the command key held. -/
theorem zoom_then_undo_restores_witness :
    sample_drag_state.dragging = true ∧ sample_drag_state.command_pressed = true ∧
      (handle_event (handle_event sample_drag_state (Event.mouseButtonUp 40 500))
        (Event.keyUp SDL_SCANCODE_Z)).brect = sample_drag_state.brect ∧
      (handle_event (handle_event sample_drag_state (Event.mouseButtonUp 40 500))
        (Event.keyUp SDL_SCANCODE_Z)).history = sample_drag_state.history :=
  ⟨rfl, rfl, zoom_then_undo_restores.2 sample_drag_state 40 500 rfl rfl⟩

/-- **C7.** For every current rect, an undo request while the history is empty
changes nothing: the state after the release of `Z` is the state before it, so
the current rect is unchanged, the history is still empty and the redraw flag
is not set; the handler is a total function and `history.back()` is not evaluated. -/
theorem undo_on_empty_history_is_noop :
    (∀ s : AppState, s.history = [] → undo s = s) ∧
    (∀ s : AppState, s.history = [] →
      handle_event s (Event.keyUp SDL_SCANCODE_Z) = s ∧
      (handle_event s (Event.keyUp SDL_SCANCODE_Z)).brect = s.brect ∧
      (handle_event s (Event.keyUp SDL_SCANCODE_Z)).history = [] ∧
      (handle_event s (Event.keyUp SDL_SCANCODE_Z)).need_redraw = s.need_redraw) := by
  have hu : ∀ s : AppState, s.history = [] → undo s = s := by
    intro s h
    simp [undo, h]
  have hk : ∀ s : AppState, s.history = [] →
      handle_event s (Event.keyUp SDL_SCANCODE_Z) = s := by
    intro s h
    have hne : ¬ SDL_SCANCODE_Z = SDL_SCANCODE_LGUI := by decide
    simp only [handle_event, hne, if_false, true_and]
    split
    · exact hu s h
    · rfl
  refine ⟨hu, ?_⟩
  intro s h
  rw [hk s h]
  exact ⟨rfl, rfl, h, rfl⟩

/-- Witness for C7: the initial state with the command key held and no redraw pending. -/
theorem undo_on_empty_history_is_noop_witness :
    ({ initial_state blank_surface ⟨0, 0, 0, 0⟩ with
        command_pressed := true, need_redraw := false } : AppState).history = [] ∧
      handle_event ({ initial_state blank_surface ⟨0, 0, 0, 0⟩ with
        command_pressed := true, need_redraw := false } : AppState)
          (Event.keyUp SDL_SCANCODE_Z) =
        ({ initial_state blank_surface ⟨0, 0, 0, 0⟩ with
          command_pressed := true, need_redraw := false } : AppState) :=
  ⟨rfl, (undo_on_empty_history_is_noop.2 _ rfl).1⟩

/-- Counterexample to **C4** as stated: the button goes down at `(10, 10)`, the
mouse moves to `(10, 50)` and the button is released. The selection has zero
width, yet the button-up handler pushes the current rect onto the (empty)
history, requests a redraw and installs a rect with `min_x == max_x`. -/
theorem degenerate_drag_is_not_abandoned :
    degenerate_drag_state.dragging = true ∧
      degenerate_drag_state.drag_rect = ⟨10, 10, 0, 40⟩ ∧
      degenerate_drag_state.history = [] ∧
      degenerate_drag_state.need_redraw = false ∧
      (handle_event degenerate_drag_state (Event.mouseButtonUp 10 50)).history =
        [degenerate_drag_state.brect] ∧
      (handle_event degenerate_drag_state (Event.mouseButtonUp 10 50)).need_redraw = true ∧
      (handle_event degenerate_drag_state (Event.mouseButtonUp 10 50)).brect ≠
        degenerate_drag_state.brect ∧
      (handle_event degenerate_drag_state (Event.mouseButtonUp 10 50)).brect.min_x =
        (handle_event degenerate_drag_state (Event.mouseButtonUp 10 50)).brect.max_x := by
  have hd : degenerate_drag_state.dragging = true := rfl
  have hr : degenerate_drag_state.drag_rect = ⟨10, 10, 0, 40⟩ := rfl
  have hb : degenerate_drag_state.brect = default_brect := rfl
  have hh : degenerate_drag_state.history = [] := rfl
  refine ⟨hd, hr, hh, rfl, ?_, ?_, ?_, ?_⟩
  · rw [handle_mouse_up_dragging _ _ _ hd]
    simp [install_zoom, hh]
  · rw [handle_mouse_up_dragging _ _ _ hd]
    simp [install_zoom]
  · rw [handle_mouse_up_dragging _ _ _ hd]
    intro h
    have h2 : (zoom_rect degenerate_drag_state.brect degenerate_drag_state.drag_rect).min_y =
        degenerate_drag_state.brect.min_y := congrArg BoundsRect.min_y h
    rw [hr, hb] at h2
    norm_num [zoom_rect, scale, default_brect, windowHeight] at h2
  · rw [handle_mouse_up_dragging _ _ _ hd]
    exact zoom_rect_zero_width _ _ (by rw [hr])

/-- **C4 (amended).** The button-up handler abandons the gesture exactly when no
drag is in progress (`dragging` is false: no motion event arrived while the
button was held): then it pushes nothing, leaves the current rect unchanged and
does not touch the redraw flag. When a drag is in progress it zooms whatever the
size of the selection: it pushes the current rect, installs the rect computed from
`drag_rect` and requests a redraw, and a selection of zero width (height)
installs a rect with `min_x == max_x` (`min_y == max_y`). -/
theorem mouse_up_abandons_iff_not_dragging (s : AppState) (x y : Int) :
    (s.dragging = false →
      (handle_event s (Event.mouseButtonUp x y)).history = s.history ∧
      (handle_event s (Event.mouseButtonUp x y)).brect = s.brect ∧
      (handle_event s (Event.mouseButtonUp x y)).need_redraw = s.need_redraw) ∧
    (s.dragging = true →
      (handle_event s (Event.mouseButtonUp x y)).history = s.history ++ [s.brect] ∧
      (handle_event s (Event.mouseButtonUp x y)).brect = zoom_rect s.brect s.drag_rect ∧
      (handle_event s (Event.mouseButtonUp x y)).need_redraw = true ∧
      (s.drag_rect.w = 0 →
        (handle_event s (Event.mouseButtonUp x y)).brect.min_x =
          (handle_event s (Event.mouseButtonUp x y)).brect.max_x) ∧
      (s.drag_rect.h = 0 →
        (handle_event s (Event.mouseButtonUp x y)).brect.min_y =
          (handle_event s (Event.mouseButtonUp x y)).brect.max_y)) := by
  constructor
  · intro hd
    rw [handle_mouse_up_idle s x y hd]
    exact ⟨rfl, rfl, rfl⟩
  · intro hd
    rw [handle_mouse_up_dragging s x y hd]
    refine ⟨rfl, rfl, rfl, ?_, ?_⟩
    · intro hw
      exact zoom_rect_zero_width _ _ hw
    · intro hh
      exact zoom_rect_zero_height _ _ hh

/-- Witness for the amended C4: a button-up in the initial state (no drag), and a
button-up that ends a drag of zero width and zero height. -/
theorem mouse_up_abandons_iff_not_dragging_witness :
    ((initial_state blank_surface ⟨0, 0, 0, 0⟩).dragging = false ∧
      (handle_event (initial_state blank_surface ⟨0, 0, 0, 0⟩)
        (Event.mouseButtonUp 3 4)).history = (initial_state blank_surface ⟨0, 0, 0, 0⟩).history) ∧
    (({ sample_drag_state with drag_rect := ⟨5, 6, 0, 0⟩ } : AppState).dragging = true ∧
      ({ sample_drag_state with drag_rect := ⟨5, 6, 0, 0⟩ } : AppState).drag_rect.w = 0 ∧
      ({ sample_drag_state with drag_rect := ⟨5, 6, 0, 0⟩ } : AppState).drag_rect.h = 0 ∧
      (handle_event ({ sample_drag_state with drag_rect := ⟨5, 6, 0, 0⟩ } : AppState)
        (Event.mouseButtonUp 5 6)).brect.min_x =
      (handle_event ({ sample_drag_state with drag_rect := ⟨5, 6, 0, 0⟩ } : AppState)
        (Event.mouseButtonUp 5 6)).brect.max_x ∧
      (handle_event ({ sample_drag_state with drag_rect := ⟨5, 6, 0, 0⟩ } : AppState)
        (Event.mouseButtonUp 5 6)).brect.min_y =
      (handle_event ({ sample_drag_state with drag_rect := ⟨5, 6, 0, 0⟩ } : AppState)
        (Event.mouseButtonUp 5 6)).brect.max_y) :=
  ⟨⟨rfl, ((mouse_up_abandons_iff_not_dragging (initial_state blank_surface ⟨0, 0, 0, 0⟩) 3 4).1
      rfl).1⟩,
    rfl, rfl, rfl,
    ((mouse_up_abandons_iff_not_dragging
      ({ sample_drag_state with drag_rect := ⟨5, 6, 0, 0⟩ } : AppState) 5 6).2 rfl).2.2.2.1 rfl,
    ((mouse_up_abandons_iff_not_dragging
      ({ sample_drag_state with drag_rect := ⟨5, 6, 0, 0⟩ } : AppState) 5 6).2 rfl).2.2.2.2 rfl⟩

/-- **C5.** For every current rect and every two pixel points `A = (a1, a2)` and
`B = (b1, b2)`, the rect computed on button-up (lines 154-171) from the drag
rectangle of lines 122-125 is the same for the four drags over the same corner
pair: from `A` to `B`, from `B` to `A`, from `(a1, b2)` to `(b1, a2)` and from
`(b1, a2)` to `(a1, b2)`; it is the rect the button-up handler installs. -/
theorem zoom_rect_direction_independent (c : BoundsRect) (a1 a2 b1 b2 : Int) :
    zoom_rect c (drag_rect_of (b1, b2) (a1, a2)) = zoom_rect c (drag_rect_of (a1, a2) (b1, b2)) ∧
    zoom_rect c (drag_rect_of (a1, b2) (b1, a2)) = zoom_rect c (drag_rect_of (a1, a2) (b1, b2)) ∧
    zoom_rect c (drag_rect_of (b1, a2) (a1, b2)) = zoom_rect c (drag_rect_of (a1, a2) (b1, b2)) ∧
    (∀ (s : AppState) (x y : Int),
      (render_phase
        { s with
          dragging := true
          mouse_down_pos := (a1, a2)
          mouse_pos := (b1, b2) }).drag_rect = drag_rect_of (a1, a2) (b1, b2) ∧
      (handle_event
        { s with
          brect := c
          dragging := true
          drag_rect := drag_rect_of (a1, a2) (b1, b2) } (Event.mouseButtonUp x y)).brect =
        zoom_rect c (drag_rect_of (a1, a2) (b1, b2))) := by
  refine ⟨?_, ?_, ?_, ?_⟩
  · simp only [zoom_rect, drag_rect_of, drag_corner_cancel]
    rw [min_comm b1 a1, max_comm b1 a1, min_comm b2 a2, max_comm b2 a2]
  · simp only [zoom_rect, drag_rect_of, drag_corner_cancel]
    rw [min_comm b2 a2, max_comm b2 a2]
  · simp only [zoom_rect, drag_rect_of, drag_corner_cancel]
    rw [min_comm b1 a1, max_comm b1 a1]
  · intro s x y
    constructor
    · cases hn : s.need_redraw <;> simp [render_phase, hn]
    · rw [handle_mouse_up_dragging _ _ _ rfl]
      rfl

/-- **C6.** For every current rect with `min_x < max_x` and `min_y < max_y` and
every drag whose corner points `A`, `B` differ in both `x` and `y`, the rect that
the button-up handler installs again satisfies `min_x < max_x` and
`min_y < max_y` (in exact arithmetic), whichever direction the drag went. -/
theorem zoom_keeps_rect_valid (s : AppState) (A B : Int × Int) (x y : Int)
    (hx : s.brect.min_x < s.brect.max_x) (hy : s.brect.min_y < s.brect.max_y)
    (hAx : A.1 ≠ B.1) (hAy : A.2 ≠ B.2)
    (hd : s.dragging = true) (hr : s.drag_rect = drag_rect_of A B) :
    (handle_event s (Event.mouseButtonUp x y)).brect = zoom_rect s.brect (drag_rect_of A B) ∧
    (handle_event s (Event.mouseButtonUp x y)).brect.min_x <
      (handle_event s (Event.mouseButtonUp x y)).brect.max_x ∧
    (handle_event s (Event.mouseButtonUp x y)).brect.min_y <
      (handle_event s (Event.mouseButtonUp x y)).brect.max_y := by
  rw [handle_mouse_up_dragging s x y hd, hr]
  refine ⟨rfl, ?_, ?_⟩
  · show scale _ 0 (windowWidth : Int) _ _ < scale _ 0 (windowWidth : Int) _ _
    apply scale_lt_scale _ _ windowWidth _ _ (by decide) hx
    simp only [drag_rect_of, drag_corner_cancel]
    rcases lt_or_gt_of_ne hAx with h | h
    · rw [min_eq_left (le_of_lt h), max_eq_right (le_of_lt h)]; exact h
    · rw [min_eq_right (le_of_lt h), max_eq_left (le_of_lt h)]; exact h
  · show scale _ 0 (windowHeight : Int) _ _ < scale _ 0 (windowHeight : Int) _ _
    apply scale_lt_scale _ _ windowHeight _ _ (by decide) hy
    simp only [drag_rect_of, drag_corner_cancel]
    rcases lt_or_gt_of_ne hAy with h | h
    · rw [min_eq_left (le_of_lt h), max_eq_right (le_of_lt h)]; exact h
    · rw [min_eq_right (le_of_lt h), max_eq_left (le_of_lt h)]; exact h

/-- Witness for C6: a drag up and to the left, from `(100, 200)` to `(40, 500)`, over the
rect `[-1,1]x[0,1]`. -/
theorem zoom_keeps_rect_valid_witness :
    (sample_drag_state.brect.min_x < sample_drag_state.brect.max_x ∧
      sample_drag_state.brect.min_y < sample_drag_state.brect.max_y ∧
      ((100, 200) : Int × Int).1 ≠ ((40, 500) : Int × Int).1 ∧
      ((100, 200) : Int × Int).2 ≠ ((40, 500) : Int × Int).2 ∧
      sample_drag_state.dragging = true ∧
      sample_drag_state.drag_rect = drag_rect_of (100, 200) (40, 500)) ∧
    ((handle_event sample_drag_state (Event.mouseButtonUp 40 500)).brect.min_x <
        (handle_event sample_drag_state (Event.mouseButtonUp 40 500)).brect.max_x ∧
      (handle_event sample_drag_state (Event.mouseButtonUp 40 500)).brect.min_y <
        (handle_event sample_drag_state (Event.mouseButtonUp 40 500)).brect.max_y) :=
  ⟨⟨by norm_num [sample_drag_state], by norm_num [sample_drag_state], by decide, by decide,
      rfl, rfl⟩,
    (zoom_keeps_rect_valid sample_drag_state (100, 200) (40, 500) 40 500
      (by norm_num [sample_drag_state]) (by norm_num [sample_drag_state]) (by decide)
      (by decide) rfl rfl).2⟩

/-- **C11.** For every integer `pixel_x`, also outside `[0, W)`, and every rect,
`scale(pixel_x, 0, W, rect.min_x, rect.max_x)` equals
`rect.min_x + (pixel_x / W) * (rect.max_x - rect.min_x)` with a non-truncating
division, and likewise for `pixel_y` with `H`, `min_y`, `max_y`; nothing is
clamped: one window width to the left of the window the value is
`min_x - (max_x - min_x)`, two window widths to the right it is
`min_x + 2 * (max_x - min_x)`. -/
theorem scale_is_linear_unclamped :
    (∀ (v : Int) (W : Nat) (min_d max_d : ℚ),
      scale v 0 (W : Int) min_d max_d = min_d + ((v : ℚ) / (W : ℚ)) * (max_d - min_d)) ∧
    (∀ (rect : BoundsRect) (pixel_x pixel_y : Int),
      scale pixel_x 0 (windowWidth : Int) rect.min_x rect.max_x =
        rect.min_x + ((pixel_x : ℚ) / (windowWidth : ℚ)) * (rect.max_x - rect.min_x) ∧
      scale pixel_y 0 (windowHeight : Int) rect.min_y rect.max_y =
        rect.min_y + ((pixel_y : ℚ) / (windowHeight : ℚ)) * (rect.max_y - rect.min_y)) ∧
    (∀ rect : BoundsRect,
      scale (-1280) 0 (windowWidth : Int) rect.min_x rect.max_x =
        rect.min_x - (rect.max_x - rect.min_x) ∧
      scale 2560 0 (windowWidth : Int) rect.min_x rect.max_x =
        rect.min_x + 2 * (rect.max_x - rect.min_x)) := by
  have key : ∀ (v : Int) (W : Nat) (min_d max_d : ℚ),
      scale v 0 (W : Int) min_d max_d = min_d + ((v : ℚ) / (W : ℚ)) * (max_d - min_d) := by
    intro v W min_d max_d
    rw [scale_eq]
    ring
  refine ⟨key, fun rect pixel_x pixel_y => ⟨key _ _ _ _, key _ _ _ _⟩, fun rect => ⟨?_, ?_⟩⟩
  · rw [key]
    norm_num [windowWidth]
    ring
  · rw [key]
    norm_num [windowWidth]

/-- **C13.** For every rect with `min_x < max_x` and `min_y < max_y` and every
pixel `(x, y)` with `x < W`, `y < H`: mapping the pixel to fractal coordinates
with `scale` and back through the inverse linear map of the same rect,
`(real - min_x) / (max_x - min_x) * W` and `(imag - min_y) / (max_y - min_y) * H`,
gives `(x, y)` again (in exact arithmetic). -/
theorem scale_round_trip (rect : BoundsRect) (W H x y : Nat)
    (hx : rect.min_x < rect.max_x) (hy : rect.min_y < rect.max_y)
    (hxW : x < W) (hyH : y < H) :
    pixel_of_coord (scale (x : Int) 0 (W : Int) rect.min_x rect.max_x)
        rect.min_x rect.max_x W = (x : ℚ) ∧
    pixel_of_coord (scale (y : Int) 0 (H : Int) rect.min_y rect.max_y)
        rect.min_y rect.max_y H = (y : ℚ) := by
  have key : ∀ (v N : Nat) (a b : ℚ), a < b → v < N →
      pixel_of_coord (scale (v : Int) 0 (N : Int) a b) a b N = (v : ℚ) := by
    intro v N a b hab hv
    have hN : (N : ℚ) ≠ 0 := by
      have : 0 < N := by omega
      exact_mod_cast (Nat.pos_iff_ne_zero.mp this)
    have hd : b - a ≠ 0 := by linarith
    rw [scale_eq, pixel_of_coord]
    simp only [Int.cast_natCast]
    field_simp
    ring
  exact ⟨key x W _ _ hx hxW, key y H _ _ hy hyH⟩

/-- Witness for C13: pixel `(7, 9)` of the program's window on the default rect. -/
theorem scale_round_trip_witness :
    (default_brect.min_x < default_brect.max_x ∧ default_brect.min_y < default_brect.max_y ∧
      7 < windowWidth ∧ 9 < windowHeight) ∧
    (pixel_of_coord (scale ((7 : Nat) : Int) 0 (windowWidth : Int) default_brect.min_x
        default_brect.max_x) default_brect.min_x default_brect.max_x windowWidth =
        ((7 : Nat) : ℚ) ∧
      pixel_of_coord (scale ((9 : Nat) : Int) 0 (windowHeight : Int) default_brect.min_y
        default_brect.max_y) default_brect.min_y default_brect.max_y windowHeight =
        ((9 : Nat) : ℚ)) :=
  ⟨⟨by norm_num [default_brect], by norm_num [default_brect], by decide, by decide⟩,
    scale_round_trip default_brect windowWidth windowHeight 7 9 (by norm_num [default_brect])
      (by norm_num [default_brect]) (by decide) (by decide)⟩

/-- **C12.** For every state in which no drag is in progress (in particular every
state with no button held and no drag in progress), every current rect, every
history and every pixel `p`: `button_down(p)` followed directly by
`button_up(p)` pushes nothing onto the history and leaves the current rect
unchanged, whether the two events are drained by one polling pass or by two
consecutive loop iterations. -/
theorem click_without_motion_changes_nothing (s : AppState) (px py : Int)
    (hd : s.dragging = false) :
    ((handle_event (handle_event s (Event.mouseButtonDown px py))
        (Event.mouseButtonUp px py)).history = s.history ∧
      (handle_event (handle_event s (Event.mouseButtonDown px py))
        (Event.mouseButtonUp px py)).brect = s.brect) ∧
    ((main_iteration s [Event.mouseButtonDown px py, Event.mouseButtonUp px py]).history =
        s.history ∧
      (main_iteration s [Event.mouseButtonDown px py, Event.mouseButtonUp px py]).brect =
        s.brect) ∧
    ((main_iteration (main_iteration s [Event.mouseButtonDown px py])
        [Event.mouseButtonUp px py]).history = s.history ∧
      (main_iteration (main_iteration s [Event.mouseButtonDown px py])
        [Event.mouseButtonUp px py]).brect = s.brect) := by
  have same_pass : ∀ t : AppState, t.dragging = false →
      (handle_event (handle_event t (Event.mouseButtonDown px py))
          (Event.mouseButtonUp px py)).history = t.history ∧
        (handle_event (handle_event t (Event.mouseButtonDown px py))
          (Event.mouseButtonUp px py)).brect = t.brect := by
    intro t ht
    have h1 := mouse_down_fields t px py
    have h2 := mouse_up_idle_fields (handle_event t (Event.mouseButtonDown px py)) px py
      (by rw [h1.2.2, ht])
    exact ⟨by rw [h2.1, h1.1], by rw [h2.2, h1.2.1]⟩
  have hr := render_phase_fields s
  refine ⟨same_pass s hd, ?_, ?_⟩
  · have h := same_pass (render_phase s) (by rw [hr.2.2.1, hd])
    simp only [main_iteration, poll_events, List.foldl_cons, List.foldl_nil]
    exact ⟨by rw [h.1, hr.1], by rw [h.2, hr.2.1]⟩
  · have h1 := mouse_down_fields (render_phase s) px py
    have hr2 := render_phase_fields (handle_event (render_phase s) (Event.mouseButtonDown px py))
    have h3 := mouse_up_idle_fields
      (render_phase (handle_event (render_phase s) (Event.mouseButtonDown px py))) px py
      (by rw [hr2.2.2.1, h1.2.2, hr.2.2.1, hd])
    simp only [main_iteration, poll_events, List.foldl_cons, List.foldl_nil]
    exact ⟨by rw [h3.1, hr2.1, h1.1, hr.1], by rw [h3.2, hr2.2.1, h1.2.1, hr.2.1]⟩

/-- Witness for C12: a click at `(3, 4)` in the initial state. -/
theorem click_without_motion_changes_nothing_witness :
    (initial_state blank_surface ⟨0, 0, 0, 0⟩).dragging = false ∧
      (main_iteration (main_iteration (initial_state blank_surface ⟨0, 0, 0, 0⟩)
        [Event.mouseButtonDown 3 4]) [Event.mouseButtonUp 3 4]).history =
        (initial_state blank_surface ⟨0, 0, 0, 0⟩).history ∧
      (main_iteration (main_iteration (initial_state blank_surface ⟨0, 0, 0, 0⟩)
        [Event.mouseButtonDown 3 4]) [Event.mouseButtonUp 3 4]).brect =
        (initial_state blank_surface ⟨0, 0, 0, 0⟩).brect :=
  ⟨rfl,
    (click_without_motion_changes_nothing (initial_state blank_surface ⟨0, 0, 0, 0⟩) 3 4
      rfl).2.2⟩

/-- **C15.** For every current rect with `min_x < max_x` and `min_y < max_y` and
every drag whose two corner points lie inside the window (`0 <= x <= W`,
`0 <= y <= H`), the rect installed by the zoom is contained in the current one:
`current.min_x <= new.min_x <= new.max_x <= current.max_x`, and the same for `y`
(in exact arithmetic); a drag over the whole window, from `(0, 0)` to `(W, H)`,
installs a rect equal to the current one. -/
theorem zoom_inside_window_is_contained :
    (∀ (s : AppState) (A B : Int × Int) (x y : Int),
      s.brect.min_x < s.brect.max_x → s.brect.min_y < s.brect.max_y →
      0 ≤ A.1 → A.1 ≤ (windowWidth : Int) → 0 ≤ A.2 → A.2 ≤ (windowHeight : Int) →
      0 ≤ B.1 → B.1 ≤ (windowWidth : Int) → 0 ≤ B.2 → B.2 ≤ (windowHeight : Int) →
      s.dragging = true → s.drag_rect = drag_rect_of A B →
      (s.brect.min_x ≤ (handle_event s (Event.mouseButtonUp x y)).brect.min_x ∧
        (handle_event s (Event.mouseButtonUp x y)).brect.min_x ≤
          (handle_event s (Event.mouseButtonUp x y)).brect.max_x ∧
        (handle_event s (Event.mouseButtonUp x y)).brect.max_x ≤ s.brect.max_x) ∧
      (s.brect.min_y ≤ (handle_event s (Event.mouseButtonUp x y)).brect.min_y ∧
        (handle_event s (Event.mouseButtonUp x y)).brect.min_y ≤
          (handle_event s (Event.mouseButtonUp x y)).brect.max_y ∧
        (handle_event s (Event.mouseButtonUp x y)).brect.max_y ≤ s.brect.max_y)) ∧
    (∀ (s : AppState) (x y : Int), s.dragging = true →
      s.drag_rect = drag_rect_of (0, 0) ((windowWidth : Int), (windowHeight : Int)) →
      (handle_event s (Event.mouseButtonUp x y)).brect = s.brect) := by
  constructor
  · intro s A B x y hx hy hA1 hA1' hA2 hA2' hB1 hB1' hB2 hB2' hd hr
    rw [handle_mouse_up_dragging s x y hd, hr]
    show (_ ≤ (zoom_rect s.brect (drag_rect_of A B)).min_x ∧
        (zoom_rect s.brect (drag_rect_of A B)).min_x ≤
          (zoom_rect s.brect (drag_rect_of A B)).max_x ∧
        (zoom_rect s.brect (drag_rect_of A B)).max_x ≤ _) ∧
      (_ ≤ (zoom_rect s.brect (drag_rect_of A B)).min_y ∧
        (zoom_rect s.brect (drag_rect_of A B)).min_y ≤
          (zoom_rect s.brect (drag_rect_of A B)).max_y ∧
        (zoom_rect s.brect (drag_rect_of A B)).max_y ≤ _)
    rw [zoom_rect_of_corners]
    have axis : ∀ (N : Nat) (a b : ℚ) (p q : Int), 0 < N → a < b →
        0 ≤ p → p ≤ (N : Int) → 0 ≤ q → q ≤ (N : Int) →
        a ≤ scale (min p q) 0 (N : Int) a b ∧
          scale (min p q) 0 (N : Int) a b ≤ scale (max p q) 0 (N : Int) a b ∧
          scale (max p q) 0 (N : Int) a b ≤ b := by
      intro N a b p q hN hab hp hp' hq hq'
      refine ⟨?_, ?_, ?_⟩
      · have := scale_le_scale 0 (min p q) N a b (le_of_lt hab) (le_min hp hq)
        rwa [scale_at_zero] at this
      · exact scale_le_scale _ _ N a b (le_of_lt hab) (le_trans (min_le_left p q) (le_max_left p q))
      · have := scale_le_scale (max p q) (N : Int) N a b (le_of_lt hab) (max_le hp' hq')
        rwa [scale_at_max N a b hN] at this
    exact ⟨axis windowWidth _ _ A.1 B.1 (by decide) hx hA1 hA1' hB1 hB1',
      axis windowHeight _ _ A.2 B.2 (by decide) hy hA2 hA2' hB2 hB2'⟩
  · intro s x y hd hr
    rw [handle_mouse_up_dragging s x y hd, hr]
    show zoom_rect s.brect _ = s.brect
    rw [zoom_rect_of_corners]
    have h1 : min (0 : Int) (windowWidth : Int) = 0 := by decide
    have h2 : max (0 : Int) (windowWidth : Int) = (windowWidth : Int) := by decide
    have h3 : min (0 : Int) (windowHeight : Int) = 0 := by decide
    have h4 : max (0 : Int) (windowHeight : Int) = (windowHeight : Int) := by decide
    simp only [h1, h2, h3, h4, scale_at_zero, scale_at_max windowWidth _ _ (by decide),
      scale_at_max windowHeight _ _ (by decide)]

/-- Witness for C15: the drag from `(100, 200)` to `(40, 500)` over the rect
`[-1,1]x[0,1]`, and a drag over the whole window. -/
theorem zoom_inside_window_is_contained_witness :
    (sample_drag_state.brect.min_x ≤
        (handle_event sample_drag_state (Event.mouseButtonUp 40 500)).brect.min_x ∧
      (handle_event sample_drag_state (Event.mouseButtonUp 40 500)).brect.min_x ≤
        (handle_event sample_drag_state (Event.mouseButtonUp 40 500)).brect.max_x ∧
      (handle_event sample_drag_state (Event.mouseButtonUp 40 500)).brect.max_x ≤
        sample_drag_state.brect.max_x) ∧
    (handle_event
      ({ sample_drag_state with
          drag_rect := drag_rect_of (0, 0) ((windowWidth : Int), (windowHeight : Int)) } :
        AppState)
      (Event.mouseButtonUp 1280 1080)).brect = sample_drag_state.brect :=
  ⟨(zoom_inside_window_is_contained.1 sample_drag_state (100, 200) (40, 500) 40 500
      (by norm_num [sample_drag_state]) (by norm_num [sample_drag_state])
      (by decide) (by decide) (by decide) (by decide) (by decide) (by decide) (by decide)
      (by decide) rfl rfl).1,
    zoom_inside_window_is_contained.2
      ({ sample_drag_state with
          drag_rect := drag_rect_of (0, 0) ((windowWidth : Int), (windowHeight : Int)) } :
        AppState) 1280 1080 rfl rfl⟩

/-- Evaluation for **C14**: from the initial state, with the button down at
`A = (10, 10)` and the last motion at `B = (100, 100)`. When each event has its
own loop iteration the installed rect is the one spanned by `A` and `B`. When
the last motion and the button-up are drained by the same polling pass,
`drag_rect` still holds the rectangle of the previous frame, from `A` to
`(50, 50)`, and that rect is installed instead, although `mouse_pos` is `B`.
When all three events are drained by one pass, the rect is computed from the
value `drag_rect` had before the gesture, which the program never initialised. -/
theorem batched_gesture_installs_stale_rect :
    (main_loop (initial_state blank_surface ⟨0, 0, 0, 0⟩) spread_gesture).brect =
        zoom_rect default_brect (drag_rect_of (10, 10) (100, 100)) ∧
      (main_iteration (main_loop (initial_state blank_surface ⟨0, 0, 0, 0⟩)
          [[Event.mouseButtonDown 10 10], [Event.mouseMotion 50 50]])
        [Event.mouseMotion 100 100]).mouse_pos = (100, 100) ∧
      (main_loop (initial_state blank_surface ⟨0, 0, 0, 0⟩) batched_gesture).brect =
        zoom_rect default_brect (drag_rect_of (10, 10) (50, 50)) ∧
      (main_loop (initial_state blank_surface ⟨0, 0, 0, 0⟩) batched_gesture).history =
        [default_brect] ∧
      zoom_rect default_brect (drag_rect_of (10, 10) (50, 50)) ≠
        zoom_rect default_brect (drag_rect_of (10, 10) (100, 100)) ∧
      (∀ (bitmap : Surface) (drag_rect : SDL_Rect),
        (main_loop (initial_state bitmap drag_rect)
          [[Event.mouseButtonDown 10 10, Event.mouseMotion 100 100,
            Event.mouseButtonUp 100 100]]).brect = zoom_rect default_brect drag_rect) := by
  refine ⟨rfl, rfl, rfl, rfl, ?_, fun _ _ => rfl⟩
  intro h
  have h2 := congrArg BoundsRect.max_x h
  norm_num [zoom_rect, drag_rect_of, scale, default_brect, windowWidth] at h2

/-- **C16.** The history is a LIFO stack of views: for every initial rect `r_0`
with empty history and every sequence of `k` zooms to `r_1, ..., r_k` (lines
175-177), after `j <= k` undos (lines 209-213) the current rect is `r_(k-j)` and
the history is `[r_0, ..., r_(k-j-1)]`; after `k` undos the current rect is `r_0`
and the history is empty, and any number of further undos changes nothing. -/
theorem history_is_lifo (s0 : AppState) (rs : List BoundsRect) (h0 : s0.history = []) :
    (∀ j : Nat, j ≤ rs.length →
      (Nat.iterate undo j (rs.foldl install_zoom s0)).history =
        (s0.brect :: rs).take (rs.length - j) ∧
      (s0.brect :: rs)[rs.length - j]? =
        some (Nat.iterate undo j (rs.foldl install_zoom s0)).brect) ∧
    ((Nat.iterate undo rs.length (rs.foldl install_zoom s0)).brect = s0.brect ∧
      (Nat.iterate undo rs.length (rs.foldl install_zoom s0)).history = []) ∧
    (∀ m : Nat,
      Nat.iterate undo m (Nat.iterate undo rs.length (rs.foldl install_zoom s0)) =
        Nat.iterate undo rs.length (rs.foldl install_zoom s0)) := by
  have hZ : (rs.foldl install_zoom s0).history ++ [(rs.foldl install_zoom s0).brect] =
      s0.brect :: rs := by
    rw [foldl_install_zoom_stack, h0]
    rfl
  have hlen : (rs.foldl install_zoom s0).history.length = rs.length := by
    have := congrArg List.length hZ
    simpa using this
  have step : ∀ j : Nat, j ≤ rs.length →
      (Nat.iterate undo j (rs.foldl install_zoom s0)).history =
        (s0.brect :: rs).take (rs.length - j) ∧
      (s0.brect :: rs)[rs.length - j]? =
        some (Nat.iterate undo j (rs.foldl install_zoom s0)).brect := by
    intro j hj
    have hs := iterate_undo_stack j (rs.foldl install_zoom s0) (by omega)
    rw [hZ, hlen] at hs
    have e : rs.length + 1 - j = (rs.length - j) + 1 := by omega
    rw [e] at hs
    exact stack_split (by simp; omega) hs
  have hall := step rs.length (le_refl _)
  have hb : (Nat.iterate undo rs.length (rs.foldl install_zoom s0)).brect = s0.brect := by
    have := hall.2
    simp only [Nat.sub_self, List.getElem?_cons_zero, Option.some.injEq] at this
    exact this.symm
  have hh : (Nat.iterate undo rs.length (rs.foldl install_zoom s0)).history = [] := by
    have := hall.1
    simpa using this
  exact ⟨step, ⟨hb, hh⟩, iterate_undo_of_empty _ hh⟩

/-- Witness for C16: two zooms from the initial state, then one undo. -/
theorem history_is_lifo_witness :
    (initial_state blank_surface ⟨0, 0, 0, 0⟩).history = [] ∧ 1 ≤ sample_zooms.length ∧
      (Nat.iterate undo 1
        (sample_zooms.foldl install_zoom (initial_state blank_surface ⟨0, 0, 0, 0⟩))).history =
        ((initial_state blank_surface ⟨0, 0, 0, 0⟩).brect :: sample_zooms).take
          (sample_zooms.length - 1) ∧
      ((initial_state blank_surface ⟨0, 0, 0, 0⟩).brect :: sample_zooms)[sample_zooms.length - 1]? =
        some (Nat.iterate undo 1
          (sample_zooms.foldl install_zoom (initial_state blank_surface ⟨0, 0, 0, 0⟩))).brect :=
  ⟨rfl, by decide,
    (history_is_lifo (initial_state blank_surface ⟨0, 0, 0, 0⟩) sample_zooms rfl).1 1
      (by decide)⟩

end Mandelbrot
